import Mathlib

/-!
Verification of the playlist-merge pipeline (`scripts/combine_playlists.py`).

The Python source is shallowly embedded: file I/O outcomes become explicit
input datatypes (`MFile` for the m3u source, `JFile` for the JSON source),
`re.search` attribute extraction and `re.sub` substitution become character
scanners, Python's `dict` insertion-order semantics become recursion over
association lists, and Python's stable `list.sort` / `sorted` become
`List.insertionSort` on a non-strict key relation (any stable sort with the
same key yields the same list).  Python `str.strip`/`str.lower` are modelled
by `String.trim`/`String.toLower` (ASCII fragment).
-/

namespace CombinePlaylists

/-- The `Item` dataclass of the script (one channel entry). -/
structure Item where
  header : String
  link : String
  group : String
  tvg_id : Option String
  tvg_logo : Option String
  name : String
  source_rank : Nat
deriving DecidableEq, Repr

/-- Result of `open(path)` on the m3u file: `errors="ignore"` means decoding
never fails, so the only failure mode is a missing file (caught). -/
inductive MFile where
  | missing
  | fileLines (ls : List String)
deriving DecidableEq, Repr

/-- One element of a channel's `links` list in the JSON file.  `url` is read
with `l["url"]` (required), `status` with `l.get("status")` (optional). -/
structure Endpoint where
  url : String
  status : Option String
deriving DecidableEq, Repr

/-- The value attached to one channel name in the JSON file; absent keys are
`none` (`info.get`). -/
structure ChanInfo where
  group : Option String
  tvg_id : Option String
  tvg_logo : Option String
  links : List Endpoint
deriving DecidableEq, Repr

/-- A parsed JSON top-level object: name/info pairs in key insertion order
(`data.items()`). -/
abbrev JsonData := List (String × ChanInfo)

/-- Result of `open(path)` + `json.load(f)` on the JSON file: the file may be
missing (caught `FileNotFoundError`), or its content may fail strict UTF-8
decoding or JSON parsing (uncaught: blank or malformed file), or it parses. -/
inductive JFile where
  | missing
  | decodeError
  | parsed (d : JsonData)

/-- Python `str.strip()` (ASCII whitespace fragment), written on the character
list so that it evaluates by kernel reduction. -/
def pyStrip (s : String) : String :=
  String.mk (((s.data.dropWhile Char.isWhitespace).reverse.dropWhile Char.isWhitespace).reverse)

/-- Python `str.startswith` (pattern argument first). -/
def pyStartsWith (pre s : String) : Bool :=
  pre.data.isPrefixOf s.data

/-- `header.split(",", 1)`: characters before the first comma, and the
remainder after it (`none` when the string has no comma). -/
def splitFirst : List Char → List Char × Option (List Char)
  | [] => ([], none)
  | c :: cs =>
    if c = ',' then ([], some cs)
    else
      let p := splitFirst cs
      (c :: p.1, p.2)

/-- `channel_display_name`: `header.split(",", 1)[-1].strip()`. -/
def channel_display_name (header : String) : String :=
  pyStrip (match (splitFirst header.data).2 with
   | some t => String.mk t
   | none => header)

/-- `generate_tvg_id`: `re.sub(r'[^A-Za-z0-9_]', '_', name.strip())`. -/
def generate_tvg_id (name : String) : String :=
  String.mk ((pyStrip name).data.map (fun c => if c.isAlphanum || c = '_' then c else '_'))

/-- Whether `key` is a prefix of `s` (character lists). -/
def startsWithChars : List Char → List Char → Bool
  | [], _ => true
  | _ :: _, [] => false
  | k :: ks, c :: cs => k = c && startsWithChars ks cs

/-- One attempt of the regex `key("…")` at the current position: if `key` is a
prefix, capture the characters up to the next double quote; the attempt
succeeds when the closing quote exists and (for a `+` capture) the captured
text is non-empty.  Returns the capture on success. -/
def attrAt (key : List Char) (allowEmpty : Bool) (s : List Char) : Option (List Char) :=
  if startsWithChars key s then
    let rest := s.drop key.length
    let v := rest.takeWhile (fun c => c ≠ '"')
    match rest.drop v.length with
    | '"' :: _ => if allowEmpty || !v.isEmpty then some v else none
    | _ => none
  else none

/-- `re.search` for the pattern `key("[^"]*")` (or `[^"]+` when `allowEmpty`
is false): try each position left to right, return the first capture. -/
def findAttr (key : List Char) (allowEmpty : Bool) : List Char → Option (List Char)
  | [] => none
  | c :: cs =>
    match attrAt key allowEmpty (c :: cs) with
    | some v => some v
    | none => findAttr key allowEmpty cs

/-- `(re.search(r'group-title="([^"]+)"', ln) or [None, "Other"])[1]`. -/
def extractGroup (ln : String) : String :=
  match findAttr "group-title=\"".data false ln.data with
  | some v => String.mk v
  | none => "Other"

/-- `(re.search(r'tvg-id="([^"]*)"', ln) or [None, None])[1]`. -/
def extractId (ln : String) : Option String :=
  (findAttr "tvg-id=\"".data true ln.data).map String.mk

/-- `(re.search(r'tvg-logo="([^"]*)"', ln) or [None, None])[1]`. -/
def extractLogo (ln : String) : Option String :=
  (findAttr "tvg-logo=\"".data true ln.data).map String.mk

/-- Loop state of `parse_m3u`: the pending `#EXTINF` metadata line together
with the `group`/`tvg_id`/`tvg_logo` extracted from it.  In the script these
are separate variables, but they are (re)assigned together on every
`#EXTINF` line and only read while `header` is set. -/
structure MHead where
  header : String
  group : String
  tvg_id : Option String
  tvg_logo : Option String
deriving DecidableEq, Repr

/-- The line loop of `parse_m3u` over the stripped lines. -/
def m3uLoop (st : Option MHead) : List String → List Item
  | [] => []
  | ln :: rest =>
    if pyStartsWith "#EXTINF" ln then
      m3uLoop (some ⟨ln, extractGroup ln, extractId ln, extractLogo ln⟩) rest
    else if !(ln == "") && !(pyStartsWith "#" ln) then
      match st with
      | some hd =>
        ⟨hd.header, ln, hd.group, hd.tvg_id, hd.tvg_logo, channel_display_name hd.header, 3⟩
          :: m3uLoop none rest
      | none => m3uLoop none rest
    else
      m3uLoop st rest

/-- `parse_m3u`: missing file is caught and yields no records; otherwise the
stripped lines are scanned. -/
def parse_m3u : MFile → List Item
  | MFile.missing => []
  | MFile.fileLines ls => m3uLoop none (ls.map pyStrip)

/-- Predicate for `l.get("status") == "online"`. -/
def isOnline (e : Endpoint) : Bool := e.status == some "online"

/-- `next((l["url"] for l in links if l.get("status") == "online"), None)`. -/
def firstOnlineUrl (links : List Endpoint) : Option String :=
  (links.find? isOnline).map Endpoint.url

/-- The synthetic header `f'#EXTINF:-1 group-title="{group}",{name}'`. -/
def jsonHeader (group name : String) : String :=
  "#EXTINF:-1 group-title=\"" ++ group ++ "\"," ++ name

/-- The records contributed by one JSON entry (`for name, info in data.items()`
loop body).  `info.get("tvg_id") or generate_tvg_id(name)` falls back when the
stored id is absent or empty (Python truthiness); `if online:` keeps the entry
only when the selected URL is a non-empty string. -/
def entryRecords (name : String) (info : ChanInfo) : List Item :=
  let group := info.group.getD "Other"
  let tvg_id := match info.tvg_id with
    | some s => if s = "" then generate_tvg_id name else s
    | none => generate_tvg_id name
  match firstOnlineUrl info.links with
  | some u =>
    if u = "" then []
    else [⟨jsonHeader group name, u, group, some tvg_id, info.tvg_logo, name, 2⟩]
  | none => []

/-- The entry loop of `parse_json_channels` over the parsed JSON data. -/
def parse_json_data (d : JsonData) : List Item :=
  d.flatMap (fun p => entryRecords p.1 p.2)

/-- `parse_json_channels`: only `FileNotFoundError` is caught (zero records);
a decode/parse failure of the file content propagates as an exception. -/
def parse_json_channels : JFile → Except Unit (List Item)
  | JFile.missing => Except.ok []
  | JFile.decodeError => Except.error ()
  | JFile.parsed d => Except.ok (parse_json_data d)

/-- The merge loop of `main`: `by_name` is a `dict` (insertion-ordered), the
parameter `seen` is its current key set; the result is
`list(by_name.values())` paired with `duplicates_removed`. -/
def dedupeFrom (seen : List String) : List Item → List Item × Nat
  | [] => ([], 0)
  | it :: rest =>
    if it.name ∈ seen then
      let p := dedupeFrom seen rest
      (p.1, p.2 + 1)
    else
      let p := dedupeFrom (it.name :: seen) rest
      (it :: p.1, p.2)

/-- The whole merge step on the combined record list (lines 132–139). -/
def dedupe (l : List Item) : List Item × Nat := dedupeFrom [] l

/-- The merge step as `main` performs it on the two parser outputs, first
sequence concatenated before the second (`combined = chans + yt`). -/
def mergeStep (first second : List Item) : List Item := (dedupe (first ++ second)).1

/-- The fixed `GROUP_ORDER` priority list. -/
def GROUP_ORDER : List String :=
  ["Bangla", "Bangla News", "International News", "India", "Pakistan",
   "Educational", "Music", "International", "Travel", "Sports", "Religious", "Kids"]

/-- `groups[it.group].append(it)` on an insertion-ordered association list
(`defaultdict(list)`): append to the existing bucket, or add a new key at the
end. -/
def addToGroups (it : Item) : List (String × List Item) → List (String × List Item)
  | [] => [(it.group, [it])]
  | (g, xs) :: rest =>
    if g = it.group then (g, xs ++ [it]) :: rest
    else (g, xs) :: addToGroups it rest

/-- The bucket-building loop `for it in by_name.values(): groups[it.group].append(it)`. -/
def buildGroups (l : List Item) : List (String × List Item) :=
  l.foldl (fun acc it => addToGroups it acc) []

/-- `groups.get(g, [])`. -/
def lookupGroup (acc : List (String × List Item)) (g : String) : List Item :=
  match acc.find? (fun p => p.1 = g) with
  | some p => p.2
  | none => []

/-- Python `str.lower` (ASCII fragment), on the character list. -/
def pyLower (s : String) : String := String.mk (s.data.map Char.toLower)

/-- Python's string comparison: lexicographic on code points. -/
def lexLeChars : List Char → List Char → Bool
  | [], _ => true
  | _ :: _, [] => false
  | a :: as, b :: bs => if a = b then lexLeChars as bs else decide (a.toNat < b.toNat)

/-- Non-strict string order as Python compares strings. -/
def strLe (a b : String) : Prop := lexLeChars a.data b.data = true

instance strLeDecidable : DecidableRel strLe :=
  fun a b => inferInstanceAs (Decidable (lexLeChars a.data b.data = true))

/-- The sort key `lambda x: x.name.lower()`. -/
def nameKey (it : Item) : String := pyLower it.name

/-- The non-strict ordering used by `groups[g].sort(key=lambda x: x.name.lower())`. -/
def nameLe (a b : Item) : Prop := strLe (nameKey a) (nameKey b)

instance nameLeDecidable : DecidableRel nameLe :=
  fun a b => inferInstanceAs (Decidable (strLe (nameKey a) (nameKey b)))

/-- `groups[g].sort(key=lambda x: x.name.lower())`: Python's sort is stable,
modelled by the stable `List.insertionSort` on the same key. -/
def sortItems (l : List Item) : List Item := l.insertionSort nameLe

/-- `sorted(...)` on strings (ascending code-point order, stable). -/
def sortStrings (l : List String) : List String := l.insertionSort strLe

/-- `for g in groups: groups[g].sort(key=...)`. -/
def sortGroups (acc : List (String × List Item)) : List (String × List Item) :=
  acc.map (fun p => (p.1, sortItems p.2))

/-- The key sequence `GROUP_ORDER + sorted(k for k in groups.keys() if k not in GROUP_ORDER)`. -/
def orderedKeys (acc : List (String × List Item)) : List String :=
  GROUP_ORDER ++ sortStrings ((acc.map Prod.fst).filter (fun g => !GROUP_ORDER.contains g))

/-- The grouping-and-ordering stage of `main` (lines 144–153) applied to the
deduplicated record list: buckets are built in insertion order, each bucket is
sorted in place, and the buckets are emitted following the key sequence. -/
def orderItems (l : List Item) : List Item :=
  (orderedKeys (buildGroups l)).flatMap (fun g => lookupGroup (sortGroups (buildGroups l)) g)

/-- The EPG URL constant embedded twice in the output header line. -/
def EPG_URL : String :=
  "https://raw.githubusercontent.com/time2shine/IPTV/refs/heads/master/epg.xml"

/-- The first line written by `save_m3u`. -/
def m3uHeaderLine : String :=
  "#EXTM3U url-tvg=\"" ++ EPG_URL ++ "\" x-tvg-url=\"" ++ EPG_URL ++ "\"\n"

/-- Substring containment, `needle in hay`. -/
def containsChars (needle : List Char) : List Char → Bool
  | [] => needle.isEmpty
  | c :: cs => startsWithChars needle (c :: cs) || containsChars needle cs

/-- One attempt of the regex `key[^"]*"` at the current position for `re.sub`:
on success, return the remainder of the string after the whole match. -/
def subMatchAt (key : List Char) (s : List Char) : Option (List Char) :=
  if startsWithChars key s then
    let rest := s.drop key.length
    let v := rest.takeWhile (fun c => c ≠ '"')
    match rest.drop v.length with
    | '"' :: tail => some tail
    | _ => none
  else none

theorem subMatchAt_length_lt {key s tail} (h : subMatchAt key s = some tail) :
    tail.length < s.length ∨ s = [] := by
  unfold subMatchAt at h
  by_cases hp : startsWithChars key s
  · simp only [hp, if_pos] at h
    rcases hd : (s.drop key.length).drop ((s.drop key.length).takeWhile (fun c => c ≠ '"')).length with _ | ⟨c, tl⟩ <;> rw [hd] at h
    · simp at h
    · split at h
      · rename_i c' tl' heq
        cases h
        have h1 : (c :: tl).length ≤ (s.drop key.length).length := by
          rw [← hd, List.length_drop]; omega
        have h2 : (s.drop key.length).length ≤ s.length := by
          rw [List.length_drop]; omega
        simp only [List.length_cons] at h1
        cases heq
        rcases Nat.eq_zero_or_pos s.length with hz | hpos
        · right; exact List.length_eq_zero.mp hz
        · left; omega
      · simp at h
  · simp [hp] at h

/-- `re.sub(key + '[^"]*"', repl, s)`: replace every non-overlapping
left-to-right match. -/
def subAttrAll (key repl : List Char) : List Char → List Char
  | [] => []
  | c :: cs =>
    match h : subMatchAt key (c :: cs) with
    | some tail => repl ++ subAttrAll key repl tail
    | none => c :: subAttrAll key repl cs
termination_by s => s.length
decreasing_by
  · rcases subMatchAt_length_lt h with hlt | hnil
    · exact hlt
    · simp at hnil
  · simp [Nat.lt_succ_self]

/-- The `tvg-id` patch inside `save_m3u`: replace in place when the attribute
text occurs in `base`, append otherwise; skipped when `it.tvg_id` is falsy. -/
def patchIdLine (tvg_id : Option String) (base : String) : String :=
  match tvg_id with
  | some v =>
    if v = "" then base
    else if containsChars "tvg-id=\"".data base.data then
      String.mk (subAttrAll "tvg-id=\"".data ("tvg-id=\"" ++ v ++ "\"").data base.data)
    else base ++ " tvg-id=\"" ++ v ++ "\""
  | none => base

/-- The `tvg-logo` patch inside `save_m3u`, same shape as the id patch. -/
def patchLogoLine (tvg_logo : Option String) (base : String) : String :=
  match tvg_logo with
  | some v =>
    if v = "" then base
    else if containsChars "tvg-logo=\"".data base.data then
      String.mk (subAttrAll "tvg-logo=\"".data ("tvg-logo=\"" ++ v ++ "\"").data base.data)
    else base ++ " tvg-logo=\"" ++ v ++ "\""
  | none => base

/-- The two lines `f"{base},{name}\n{it.link}\n"` written for one record. -/
def itemBlock (it : Item) : String :=
  let base0 := String.mk (splitFirst it.header.data).1
  let base1 := patchIdLine it.tvg_id base0
  let base2 := patchLogoLine it.tvg_logo base1
  base2 ++ "," ++ it.name ++ "\n" ++ it.link ++ "\n"

/-- `save_m3u` as the text written to the output file: the header line
followed by the per-record writes in order. -/
def save_m3u (items : List Item) : String :=
  items.foldl (fun acc it => acc ++ itemBlock it) m3uHeaderLine

/-- The whole pipeline of `main` as a function from the two source-file
contents to the output-file text; a JSON decode failure propagates. -/
def pipelineOutput (yt : MFile) (js : JFile) : Except Unit String :=
  match parse_json_channels js with
  | Except.error e => Except.error e
  | Except.ok chans =>
    let combined := chans ++ parse_m3u yt
    Except.ok (save_m3u (orderItems (dedupe combined).1))

/-- The group sequence as the spec describes it: priority groups present in
the data, in the literal priority order, then the remaining distinct group
labels of the data in ascending lexicographic order. -/
def specKeySeq (l : List Item) : List String :=
  GROUP_ORDER.filter (fun g => l.any (fun it => decide (it.group = g))) ++
    sortStrings (((l.map Item.group).dedup).filter (fun g => !GROUP_ORDER.contains g))

/-- Whether one JSON entry survives (`if online:` truthiness). -/
def entryKept (p : String × ChanInfo) : Bool :=
  !((firstOnlineUrl p.2.links).getD "" == "")

/-- Python truthiness of an optional string: `None` and `""` are falsy. -/
def pyTruthy (o : Option String) : Bool := !((o.getD "") == "")

/-- The metadata line prefix as the spec describes it: the original header
truncated at its first comma. -/
def specBase (h : String) : String := String.mk (h.data.takeWhile (fun c => c ≠ ','))

/-- The replace-or-append rule of the spec, for one quoted attribute key
(`keyq` is the attribute text up to and including the opening quote). -/
def specAttrPatch (keyq v b : String) : String :=
  if containsChars keyq.data b.data then
    String.mk (subAttrAll keyq.data (keyq ++ v ++ "\"").data b.data)
  else b ++ " " ++ keyq ++ v ++ "\""

/-- The metadata line as the spec describes its construction: truncate,
patch `tvg-id` when set, patch `tvg-logo` when set, close with the canonical
display name. -/
def specMetaLine (it : Item) : String :=
  let b0 := specBase it.header
  let b1 := if pyTruthy it.tvg_id then specAttrPatch "tvg-id=\"" (it.tvg_id.getD "") b0 else b0
  let b2 := if pyTruthy it.tvg_logo then specAttrPatch "tvg-logo=\"" (it.tvg_logo.getD "") b1 else b1
  b2 ++ "," ++ it.name

/-- One record's serialized text: its metadata line, then its link verbatim. -/
def specBlock (it : Item) : String := specMetaLine it ++ "\n" ++ it.link ++ "\n"

/-- Concatenation of the per-record blocks. -/
def joinBlocks : List Item → String
  | [] => ""
  | it :: rest => specBlock it ++ joinBlocks rest

/-- Spec-side: the text after the first comma of a line (the whole line when
it has no comma). -/
def afterFirstComma (s : String) : String :=
  match s.data.dropWhile (fun c => c ≠ ',') with
  | [] => s
  | _ :: rest => String.mk rest

/-- Spec-side: the trimmed trailing text after the last comma of a line, as
claim C5 words it. -/
def lastCommaName (s : String) : String :=
  pyStrip (String.mk ((s.data.reverse.takeWhile (fun c => c ≠ ',')).reverse))

/-- Fixture: a structured-source record for the channel name `Chan`. -/
def jsonChanItem : Item :=
  ⟨"#EXTINF:-1 group-title=\"Bangla\",Chan", "http://json-link", "Bangla",
    some "chan", some "http://logo", "Chan", 2⟩

/-- Fixture: a playlist-source record for the same channel name `Chan`. -/
def ytChanItem : Item :=
  ⟨"#EXTINF:-1,Chan", "http://yt-link", "Other", none, none, "Chan", 3⟩

/-- Fixture: a JSON entry whose first online endpoint is its second one. -/
def onlineSecondInfo : ChanInfo :=
  ⟨none, none, none, [⟨"a", some "offline"⟩, ⟨"b", some "online"⟩]⟩

/-- Fixture: the record produced for `onlineSecondInfo` under the key `Ch`. -/
def onlineSecondItem : Item :=
  ⟨"#EXTINF:-1 group-title=\"Other\",Ch", "b", "Other", some "Ch", none, "Ch", 2⟩

/-- Fixture: m3u lines whose metadata line contains two commas. -/
def twoCommaFile : MFile := MFile.fileLines ["#EXTINF:-1,Foo, Bar", "http://x"]

/-- Fixture: the record parsed from `twoCommaFile`. -/
def twoCommaItem : Item :=
  ⟨"#EXTINF:-1,Foo, Bar", "http://x", "Other", none, none, "Foo, Bar", 3⟩

/-- Fixture: m3u lines whose metadata line ends at its comma. -/
def emptyNameFile : MFile := MFile.fileLines ["#EXTINF:-1,", "http://x"]

/-- Fixture: the record with an empty display name parsed from `emptyNameFile`. -/
def emptyNameItem : Item := ⟨"#EXTINF:-1,", "http://x", "Other", none, none, "", 3⟩

/-- Fixture: a JSON entry whose first online endpoint has an empty URL. -/
def emptyUrlInfo : ChanInfo :=
  ⟨none, none, none, [⟨"", some "online"⟩, ⟨"b", some "online"⟩]⟩

/-- Fixture: JSON data mixing a dropped empty-URL entry and a kept entry. -/
def mixedJson : JsonData := [("E", emptyUrlInfo), ("Ch", onlineSecondInfo)]

theorem charToNatInj {a b : Char} (h : a.toNat = b.toNat) : a = b :=
  Char.eq_of_val_eq (UInt32.toNat.inj h)

theorem stringDataInj {a b : String} (h : a.data = b.data) : a = b := by
  cases a; cases b
  simp only at h
  subst h
  rfl

theorem lexLeChars_refl : ∀ l, lexLeChars l l = true
  | [] => rfl
  | c :: cs => by simp [lexLeChars, lexLeChars_refl cs]

theorem lexLeChars_total : ∀ a b, lexLeChars a b = true ∨ lexLeChars b a = true
  | [], _ => Or.inl rfl
  | _ :: _, [] => Or.inr rfl
  | a :: as, b :: bs => by
    by_cases hab : a = b
    · subst hab
      simpa [lexLeChars] using lexLeChars_total as bs
    · have hba : b ≠ a := fun h => hab h.symm
      have hne : a.toNat ≠ b.toNat := fun h => hab (charToNatInj h)
      simp only [lexLeChars, if_neg hab, if_neg hba, decide_eq_true_eq]
      omega

theorem lexLeChars_trans : ∀ a b c, lexLeChars a b = true → lexLeChars b c = true →
    lexLeChars a c = true
  | [], _, _ => by simp [lexLeChars]
  | _ :: _, [], _ => by simp [lexLeChars]
  | _ :: _, _ :: _, [] => by simp [lexLeChars]
  | a :: as, b :: bs, c :: cs => by
    intro h1 h2
    by_cases hab : a = b <;> by_cases hbc : b = c
    · subst hab; subst hbc
      simp only [lexLeChars, if_pos rfl] at h1 h2 ⊢
      exact lexLeChars_trans as bs cs h1 h2
    · subst hab
      simpa [lexLeChars, hbc] using h2
    · subst hbc
      simpa [lexLeChars, hab] using h1
    · simp only [lexLeChars, if_neg hab, if_neg hbc, decide_eq_true_eq] at h1 h2
      have hac : a ≠ c := by
        intro h; subst h
        exact hab (charToNatInj (by omega))
      simp only [lexLeChars, if_neg hac, decide_eq_true_eq]
      omega

theorem lexLeChars_antisymm : ∀ a b, lexLeChars a b = true → lexLeChars b a = true → a = b
  | [], [] => by simp
  | [], _ :: _ => by simp [lexLeChars]
  | _ :: _, [] => by simp [lexLeChars]
  | a :: as, b :: bs => by
    intro h1 h2
    by_cases hab : a = b
    · subst hab
      simp only [lexLeChars, if_pos rfl] at h1 h2
      rw [lexLeChars_antisymm as bs h1 h2]
    · have hba : b ≠ a := fun h => hab h.symm
      simp only [lexLeChars, if_neg hab, if_neg hba, decide_eq_true_eq] at h1 h2
      omega

theorem strLe_refl (a : String) : strLe a a := lexLeChars_refl a.data

theorem strLe_total (a b : String) : strLe a b ∨ strLe b a := lexLeChars_total a.data b.data

theorem strLe_trans {a b c : String} (h1 : strLe a b) (h2 : strLe b c) : strLe a c :=
  lexLeChars_trans a.data b.data c.data h1 h2

theorem strLe_antisymm {a b : String} (h1 : strLe a b) (h2 : strLe b a) : a = b :=
  stringDataInj (lexLeChars_antisymm a.data b.data h1 h2)

instance : IsTotal String strLe := ⟨strLe_total⟩

instance : IsTrans String strLe := ⟨fun _ _ _ => strLe_trans⟩

instance : IsAntisymm String strLe := ⟨fun _ _ => strLe_antisymm⟩

instance : IsTotal Item nameLe := ⟨fun a b => strLe_total (nameKey a) (nameKey b)⟩

instance : IsTrans Item nameLe := ⟨fun _ _ _ => strLe_trans⟩

theorem nameLe_of_key_eq {a b : Item} (h : nameKey a = nameKey b) : nameLe a b := by
  unfold nameLe; rw [h]; exact strLe_refl _

theorem key_ne_of_not_nameLe {a b : Item} (h : ¬ nameLe a b) : nameKey b ≠ nameKey a :=
  fun he => h (nameLe_of_key_eq he.symm)

/-- Stability of the in-bucket sort at the level of one insertion: the
occurrences of any fixed key are preserved in order, with the inserted
element in front of its own key class. -/
theorem filter_orderedInsert (a : Item) (c : String) : ∀ l : List Item,
    (l.orderedInsert nameLe a).filter (fun x => decide (nameKey x = c)) =
      if nameKey a = c then a :: l.filter (fun x => decide (nameKey x = c))
      else l.filter (fun x => decide (nameKey x = c))
  | [] => by
    by_cases h : nameKey a = c <;> simp [List.orderedInsert, h]
  | b :: bs => by
    simp only [List.orderedInsert]
    by_cases hle : nameLe a b
    · by_cases h : nameKey a = c <;> simp [hle, h, List.filter]
    · have hba : nameKey b ≠ nameKey a := key_ne_of_not_nameLe hle
      by_cases h : nameKey a = c
      · have hbc : ¬ (nameKey b = c) := by rw [← h]; exact hba
        simp [hle, h, hbc, List.filter, filter_orderedInsert a c bs]
      · by_cases hbc : nameKey b = c <;>
          simp [hle, h, hbc, List.filter, filter_orderedInsert a c bs]

/-- Stability of `sortItems`: each key class keeps its original order. -/
theorem filter_sortItems (c : String) : ∀ l : List Item,
    (sortItems l).filter (fun x => decide (nameKey x = c)) =
      l.filter (fun x => decide (nameKey x = c))
  | [] => rfl
  | b :: bs => by
    have ih := filter_sortItems c bs
    unfold sortItems at ih ⊢
    simp only [List.insertionSort]
    rw [filter_orderedInsert b c (List.insertionSort nameLe bs)]
    by_cases h : nameKey b = c <;> simp [h, List.filter, ih]

theorem sortItems_sorted (l : List Item) : (sortItems l).Pairwise nameLe :=
  List.sorted_insertionSort nameLe l

theorem sortItems_perm (l : List Item) : List.Perm (sortItems l) l :=
  List.perm_insertionSort nameLe l

theorem sortStrings_sorted (l : List String) : (sortStrings l).Pairwise strLe :=
  List.sorted_insertionSort strLe l

theorem sortStrings_perm (l : List String) : List.Perm (sortStrings l) l :=
  List.perm_insertionSort strLe l

theorem lookup_addToGroups (it : Item) (g : String) : ∀ acc,
    lookupGroup (addToGroups it acc) g =
      if it.group = g then lookupGroup acc g ++ [it] else lookupGroup acc g
  | [] => by
    by_cases h : it.group = g <;> simp [addToGroups, lookupGroup, List.find?, h]
  | (k, xs) :: rest => by
    by_cases hk : k = it.group
    · subst hk
      by_cases h : it.group = g <;> simp [addToGroups, lookupGroup, List.find?, h]
    · by_cases h : k = g
      · subst h
        have : ¬ it.group = k := fun he => hk he.symm
        simp [addToGroups, lookupGroup, List.find?, hk, this]
      · have ih := lookup_addToGroups it g rest
        by_cases hg : it.group = g <;>
          simp_all [addToGroups, lookupGroup, List.find?, hk, h]

theorem lookup_foldl_addToGroups (g : String) : ∀ (l : List Item) acc,
    lookupGroup (l.foldl (fun a it => addToGroups it a) acc) g =
      lookupGroup acc g ++ l.filter (fun it => decide (it.group = g))
  | [], acc => by simp
  | it :: rest, acc => by
    simp only [List.foldl_cons]
    rw [lookup_foldl_addToGroups g rest (addToGroups it acc), lookup_addToGroups it g acc]
    by_cases h : it.group = g <;> simp [h, List.filter]

/-- The bucket of a group label is exactly the subsequence of records with
that label, in input order. -/
theorem lookup_buildGroups (l : List Item) (g : String) :
    lookupGroup (buildGroups l) g = l.filter (fun it => decide (it.group = g)) := by
  unfold buildGroups
  rw [lookup_foldl_addToGroups g l []]
  simp [lookupGroup, List.find?]

theorem lookup_sortGroups (g : String) : ∀ acc,
    lookupGroup (sortGroups acc) g = sortItems (lookupGroup acc g)
  | [] => by simp [sortGroups, lookupGroup, List.find?, sortItems, List.insertionSort]
  | (k, xs) :: rest => by
    by_cases h : k = g
    · subst h
      simp [sortGroups, lookupGroup, List.find?]
    · have ih := lookup_sortGroups g rest
      simp_all [sortGroups, lookupGroup, List.find?]

theorem keys_addToGroups (it : Item) : ∀ acc,
    (addToGroups it acc).map Prod.fst =
      if it.group ∈ acc.map Prod.fst then acc.map Prod.fst
      else acc.map Prod.fst ++ [it.group]
  | [] => by simp [addToGroups]
  | (k, xs) :: rest => by
    by_cases hk : k = it.group
    · subst hk
      simp [addToGroups]
    · have hk' : ¬ it.group = k := fun h => hk h.symm
      have ih := keys_addToGroups it rest
      by_cases hm : it.group ∈ rest.map Prod.fst <;>
        simp_all [addToGroups, List.mem_cons, hk']

theorem mem_keys_foldl_addToGroups (g : String) : ∀ (l : List Item) acc,
    (g ∈ (l.foldl (fun a it => addToGroups it a) acc).map Prod.fst ↔
      g ∈ acc.map Prod.fst ∨ g ∈ l.map Item.group)
  | [], acc => by simp
  | it :: rest, acc => by
    simp only [List.foldl_cons]
    rw [mem_keys_foldl_addToGroups g rest (addToGroups it acc)]
    rw [keys_addToGroups it acc]
    by_cases hm : it.group ∈ acc.map Prod.fst
    · simp only [if_pos hm, List.map_cons, List.mem_cons]
      constructor
      · rintro (h | h)
        · exact Or.inl h
        · exact Or.inr (Or.inr h)
      · rintro (h | h | h)
        · exact Or.inl h
        · exact h ▸ Or.inl hm
        · exact Or.inr h
    · simp only [if_neg hm, List.map_cons, List.mem_cons, List.mem_append,
        List.mem_singleton]
      tauto

theorem mem_keys_buildGroups (g : String) (l : List Item) :
    g ∈ (buildGroups l).map Prod.fst ↔ g ∈ l.map Item.group := by
  unfold buildGroups
  rw [mem_keys_foldl_addToGroups g l []]
  simp

theorem nodup_keys_foldl_addToGroups : ∀ (l : List Item) acc,
    (acc.map Prod.fst).Nodup →
      ((l.foldl (fun a it => addToGroups it a) acc).map Prod.fst).Nodup
  | [], acc => fun h => h
  | it :: rest, acc => fun h => by
    simp only [List.foldl_cons]
    apply nodup_keys_foldl_addToGroups rest
    rw [keys_addToGroups it acc]
    by_cases hm : it.group ∈ acc.map Prod.fst
    · simpa [hm] using h
    · simp only [if_neg hm]
      exact List.Nodup.append h (List.nodup_singleton _)
        (by simpa [List.disjoint_singleton] using hm)

theorem nodup_keys_buildGroups (l : List Item) : ((buildGroups l).map Prod.fst).Nodup :=
  nodup_keys_foldl_addToGroups l [] (by simp)

theorem flatMap_drop_absent (l : List Item) : ∀ ks : List String,
    ks.flatMap (fun g => sortItems (l.filter (fun it => decide (it.group = g)))) =
      (ks.filter (fun g => l.any (fun it => decide (it.group = g)))).flatMap
        (fun g => sortItems (l.filter (fun it => decide (it.group = g))))
  | [] => rfl
  | g :: ks => by
    by_cases h : l.any (fun it => decide (it.group = g)) = true
    · simp only [List.flatMap_cons, List.filter_cons, h, if_true, flatMap_drop_absent l ks,
        List.flatMap_cons]
    · have hnil : l.filter (fun it => decide (it.group = g)) = [] := by
        apply List.filter_eq_nil_iff.mpr
        intro a ha
        simp only [List.any_eq_true, not_exists, not_and] at h
        simpa using h a ha
      simp only [List.filter_cons, h, if_false, List.flatMap_cons, hnil,
        flatMap_drop_absent l ks]
      simp [sortItems, List.insertionSort]

theorem remaining_keys_perm (l : List Item) :
    List.Perm (((buildGroups l).map Prod.fst).filter (fun g => !GROUP_ORDER.contains g))
      (((l.map Item.group).dedup).filter (fun g => !GROUP_ORDER.contains g)) := by
  apply (List.perm_ext_iff_of_nodup
    ((nodup_keys_buildGroups l).filter _) ((List.nodup_dedup _).filter _)).mpr
  intro g
  simp only [List.mem_filter, List.mem_dedup, mem_keys_buildGroups]

theorem sortStrings_eq_of_perm {a b : List String} (h : List.Perm a b) :
    sortStrings a = sortStrings b :=
  List.eq_of_perm_of_sorted
    (((sortStrings_perm a).trans h).trans (sortStrings_perm b).symm)
    (sortStrings_sorted a) (sortStrings_sorted b)

/-- The grouping-and-ordering stage equals the spec's description: a flat map
of the per-group case-insensitively sorted buckets over the spec's group
sequence. -/
theorem orderItems_eq_spec (l : List Item) :
    orderItems l = (specKeySeq l).flatMap
      (fun g => sortItems (l.filter (fun it => decide (it.group = g)))) := by
  unfold orderItems orderedKeys specKeySeq
  have hfun : (fun g => lookupGroup (sortGroups (buildGroups l)) g) =
      (fun g => sortItems (l.filter (fun it => decide (it.group = g)))) := by
    funext g
    rw [lookup_sortGroups g (buildGroups l), lookup_buildGroups l g]
  rw [hfun, List.flatMap_append, List.flatMap_append,
    flatMap_drop_absent l GROUP_ORDER,
    sortStrings_eq_of_perm (remaining_keys_perm l)]

theorem flatMap_sortItems_perm (l : List Item) : ∀ ks : List String,
    List.Perm
      (ks.flatMap (fun g => sortItems (l.filter (fun it => decide (it.group = g)))))
      (ks.flatMap (fun g => l.filter (fun it => decide (it.group = g))))
  | [] => List.Perm.refl _
  | g :: ks => by
    simp only [List.flatMap_cons]
    exact (sortItems_perm _).append (flatMap_sortItems_perm l ks)

theorem flatMap_congr_mem {α β : Type} (f h : α → List β) : ∀ l : List α,
    (∀ a ∈ l, f a = h a) → l.flatMap f = l.flatMap h
  | [] => fun _ => rfl
  | a :: as => fun hc => by
    simp only [List.flatMap_cons, hc a (List.mem_cons_self a as),
      flatMap_congr_mem f h as (fun b hb => hc b (List.mem_cons_of_mem a hb))]

theorem flatMap_filter_perm : ∀ (ks : List String) (l : List Item), ks.Nodup →
    (∀ it ∈ l, it.group ∈ ks) →
    List.Perm (ks.flatMap (fun g => l.filter (fun it => decide (it.group = g)))) l
  | [], l, _, hcov => by
    have : l = [] := by
      cases l with
      | nil => rfl
      | cons a as => exact absurd (hcov a (List.mem_cons_self a as)) (List.not_mem_nil _)
    simp [this]
  | g :: ks, l, hnd, hcov => by
    simp only [List.flatMap_cons]
    have hnd' : ks.Nodup := (List.nodup_cons.mp hnd).2
    have hg : g ∉ ks := (List.nodup_cons.mp hnd).1
    have hrest : ∀ k ∈ ks, l.filter (fun it => decide (it.group = k)) =
        (l.filter (fun it => !decide (it.group = g))).filter
          (fun it => decide (it.group = k)) := by
      intro k hk
      rw [List.filter_filter]
      apply List.filter_congr
      intro it _
      by_cases h : it.group = k
      · have hkg : ¬ k = g := fun he => hg (he ▸ hk)
        have hne : ¬ it.group = g := by rw [h]; exact hkg
        simp [h, hne, hkg]
      · simp [h]
    have hcov' : ∀ it ∈ l.filter (fun it => !decide (it.group = g)), it.group ∈ ks := by
      intro it hit
      have hmem := List.mem_filter.mp hit
      have hne : ¬ it.group = g := by simpa using hmem.2
      rcases List.mem_cons.mp (hcov it hmem.1) with h | h
      · exact absurd h hne
      · exact h
    rw [flatMap_congr_mem _ _ ks hrest]
    refine List.Perm.trans ?_ (List.filter_append_perm (fun it => decide (it.group = g)) l)
    exact List.Perm.append_left _
      (flatMap_filter_perm ks (l.filter (fun it => !decide (it.group = g))) hnd' hcov')

end CombinePlaylists

namespace CombinePlaylists

theorem specKeySeq_nodup (l : List Item) : (specKeySeq l).Nodup := by
  unfold specKeySeq
  have hY : ((((l.map Item.group).dedup)).filter
      (fun g => !GROUP_ORDER.contains g)).Nodup :=
    (List.nodup_dedup _).filter _
  apply List.Nodup.append
  · exact (by decide : GROUP_ORDER.Nodup).filter _
  · exact ((sortStrings_perm _).symm).nodup hY
  · intro a h1 h2
    have ha1 : a ∈ GROUP_ORDER := (List.mem_filter.mp h1).1
    have ha2 := List.mem_filter.mp ((sortStrings_perm _).mem_iff.mp h2)
    have : ¬ a ∈ GROUP_ORDER := by simpa using ha2.2
    exact this ha1

theorem specKeySeq_cover (l : List Item) : ∀ it ∈ l, it.group ∈ specKeySeq l := by
  intro it hit
  unfold specKeySeq
  by_cases h : it.group ∈ GROUP_ORDER
  · exact List.mem_append_left _
      (List.mem_filter.mpr ⟨h, List.any_eq_true.mpr ⟨it, hit, by simp⟩⟩)
  · apply List.mem_append_right
    apply (sortStrings_perm _).mem_iff.mpr
    exact List.mem_filter.mpr
      ⟨List.mem_dedup.mpr (List.mem_map.mpr ⟨it, hit, rfl⟩), by simpa using h⟩

/-- The ordering stage permutes its input: every deduplicated record appears
exactly once in the output. -/
theorem orderItems_perm (l : List Item) : List.Perm (orderItems l) l := by
  rw [orderItems_eq_spec]
  exact (flatMap_sortItems_perm l (specKeySeq l)).trans
    (flatMap_filter_perm (specKeySeq l) l (specKeySeq_nodup l) (specKeySeq_cover l))

theorem dedupeFrom_length : ∀ (l : List Item) (seen : List String),
    (dedupeFrom seen l).1.length + (dedupeFrom seen l).2 = l.length
  | [], _ => rfl
  | it :: rest, seen => by
    by_cases h : it.name ∈ seen
    · have ih := dedupeFrom_length rest seen
      simp only [dedupeFrom, if_pos h, List.length_cons]
      omega
    · have ih := dedupeFrom_length rest (it.name :: seen)
      simp only [dedupeFrom, if_neg h, List.length_cons]
      omega

theorem dedupeFrom_find? : ∀ (l : List Item) (seen : List String) (n : String), n ∉ seen →
    (dedupeFrom seen l).1.find? (fun it => decide (it.name = n)) =
      l.find? (fun it => decide (it.name = n))
  | [], _, _, _ => rfl
  | it :: rest, seen, n, hn => by
    by_cases h : it.name ∈ seen
    · have hne : ¬ it.name = n := fun he => hn (he ▸ h)
      simp only [dedupeFrom, if_pos h]
      rw [dedupeFrom_find? rest seen n hn, List.find?_cons_of_neg _ (by simpa using hne)]
    · by_cases he : it.name = n
      · simp only [dedupeFrom, if_neg h]
        rw [List.find?_cons_of_pos _ (by simpa using he),
          List.find?_cons_of_pos _ (by simpa using he)]
      · have hn' : n ∉ it.name :: seen := by
          intro hc
          rcases List.mem_cons.mp hc with hc | hc
          · exact he hc.symm
          · exact hn hc
        simp only [dedupeFrom, if_neg h]
        rw [List.find?_cons_of_neg _ (by simpa using he),
          List.find?_cons_of_neg _ (by simpa using he),
          dedupeFrom_find? rest (it.name :: seen) n hn']

theorem dedupeFrom_not_seen : ∀ (l : List Item) (seen : List String),
    ∀ it ∈ (dedupeFrom seen l).1, it.name ∉ seen
  | [], _ => by simp [dedupeFrom]
  | it :: rest, seen => by
    intro x hx
    by_cases h : it.name ∈ seen
    · simp only [dedupeFrom, if_pos h] at hx
      exact dedupeFrom_not_seen rest seen x hx
    · simp only [dedupeFrom, if_neg h] at hx
      rcases List.mem_cons.mp hx with hc | hc
      · exact hc ▸ h
      · intro hmem
        exact dedupeFrom_not_seen rest (it.name :: seen) x hc
          (List.mem_cons_of_mem _ hmem)

theorem dedupeFrom_names_nodup : ∀ (l : List Item) (seen : List String),
    ((dedupeFrom seen l).1.map Item.name).Nodup
  | [], _ => by simp [dedupeFrom]
  | it :: rest, seen => by
    by_cases h : it.name ∈ seen
    · simp only [dedupeFrom, if_pos h]
      exact dedupeFrom_names_nodup rest seen
    · simp only [dedupeFrom, if_neg h, List.map_cons]
      refine List.nodup_cons.mpr ⟨?_, dedupeFrom_names_nodup rest (it.name :: seen)⟩
      intro hmem
      rcases List.mem_map.mp hmem with ⟨x, hx, hxe⟩
      exact dedupeFrom_not_seen rest (it.name :: seen) x hx
        (hxe ▸ List.mem_cons_self _ _)

theorem dedupeFrom_sublist : ∀ (l : List Item) (seen : List String),
    List.Sublist (dedupeFrom seen l).1 l
  | [], _ => List.Sublist.refl []
  | it :: rest, seen => by
    by_cases h : it.name ∈ seen
    · simp only [dedupeFrom, if_pos h]
      exact (dedupeFrom_sublist rest seen).cons it
    · simp only [dedupeFrom, if_neg h]
      exact (dedupeFrom_sublist rest (it.name :: seen)).cons₂ it

/-- The record a name resolves to after the merge loop is the first record
with that name in the combined input. -/
theorem dedupe_find? (l : List Item) (n : String) :
    (dedupe l).1.find? (fun it => decide (it.name = n)) =
      l.find? (fun it => decide (it.name = n)) :=
  dedupeFrom_find? l [] n (List.not_mem_nil n)

theorem mergeStep_find? (a b : List Item) (n : String) :
    (mergeStep a b).find? (fun it => decide (it.name = n)) =
      (a.find? (fun it => decide (it.name = n))).or
        (b.find? (fun it => decide (it.name = n))) := by
  unfold mergeStep
  rw [dedupe_find? (a ++ b) n, List.find?_append]

/-- Every record the m3u loop emits carries the display name computed from
its own header line, and the playlist source rank. -/
theorem m3uLoop_name_eq : ∀ (ls : List String) (st : Option MHead),
    ∀ it ∈ m3uLoop st ls, it.name = channel_display_name it.header ∧ it.source_rank = 3
  | [], _ => by simp [m3uLoop]
  | ln :: rest, st => by
    intro it hit
    unfold m3uLoop at hit
    by_cases h1 : pyStartsWith "#EXTINF" ln
    · simp only [if_pos h1] at hit
      exact m3uLoop_name_eq rest _ it hit
    · simp only [if_neg h1] at hit
      by_cases h2 : (!(ln == "") && !(pyStartsWith "#" ln)) = true
      · simp only [h2, if_true] at hit
        cases st with
        | some hd =>
          rcases List.mem_cons.mp hit with hc | hc
          · subst hc
            exact ⟨rfl, rfl⟩
          · exact m3uLoop_name_eq rest none it hc
        | none => exact m3uLoop_name_eq rest none it hit
      · simp only [h2, if_false] at hit
        exact m3uLoop_name_eq rest st it hit

theorem parse_m3u_name_eq (mf : MFile) :
    ∀ it ∈ parse_m3u mf, it.name = channel_display_name it.header ∧ it.source_rank = 3 := by
  cases mf with
  | missing => simp [parse_m3u]
  | fileLines ls => exact m3uLoop_name_eq (ls.map pyStrip) none

/-- Every record the JSON parser emits is named by its entry key and carries
the structured source rank. -/
theorem parse_json_name_mem (d : JsonData) :
    ∀ it ∈ parse_json_data d, ∃ p ∈ d, it.name = p.1 ∧ it.source_rank = 2 := by
  intro it hit
  rcases List.mem_flatMap.mp hit with ⟨p, hp, hin⟩
  refine ⟨p, hp, ?_⟩
  unfold entryRecords at hin
  rcases hu : firstOnlineUrl p.2.links with _ | u <;> rw [hu] at hin
  · simp at hin
  · by_cases he : u = ""
    · simp [he] at hin
    · simp only [he, if_false] at hin
      rcases List.mem_singleton.mp hin with rfl
      exact ⟨rfl, rfl⟩

theorem entryRecords_of_none {name : String} {info : ChanInfo}
    (h : firstOnlineUrl info.links = none) : entryRecords name info = [] := by
  unfold entryRecords
  rw [h]

theorem entryRecords_link {name : String} {info : ChanInfo} :
    ∀ it ∈ entryRecords name info, firstOnlineUrl info.links = some it.link := by
  intro it hit
  unfold entryRecords at hit
  rcases hu : firstOnlineUrl info.links with _ | u <;> rw [hu] at hit
  · simp at hit
  · by_cases he : u = ""
    · simp [he] at hit
    · simp only [he, if_false] at hit
      rcases List.mem_singleton.mp hit with rfl
      rfl

theorem entryRecords_link_ne {name : String} {info : ChanInfo} :
    ∀ it ∈ entryRecords name info, it.link ≠ "" := by
  intro it hit
  unfold entryRecords at hit
  rcases hu : firstOnlineUrl info.links with _ | u <;> rw [hu] at hit
  · simp at hit
  · by_cases he : u = ""
    · simp [he] at hit
    · simp only [he, if_false] at hit
      rcases List.mem_singleton.mp hit with rfl
      exact he

theorem parse_json_link_ne (d : JsonData) : ∀ it ∈ parse_json_data d, it.link ≠ "" := by
  intro it hit
  rcases List.mem_flatMap.mp hit with ⟨p, _, hin⟩
  exact entryRecords_link_ne it hin

theorem entryRecords_length (name : String) (info : ChanInfo) :
    (entryRecords name info).length =
      if (!((firstOnlineUrl info.links).getD "" == "")) = true then 1 else 0 := by
  unfold entryRecords
  rcases hu : firstOnlineUrl info.links with _ | u
  · simp
  · by_cases he : u = "" <;> simp [he]

theorem parse_json_length : ∀ d : JsonData,
    (parse_json_data d).length = (d.filter entryKept).length
  | [] => rfl
  | ⟨nm, inf⟩ :: rest => by
    show (entryRecords nm inf ++ parse_json_data rest).length = _
    rw [List.length_append, entryRecords_length nm inf, parse_json_length rest]
    by_cases h : entryKept (nm, inf) = true
    · have hcond : (!((firstOnlineUrl inf.links).getD "" == "")) = true := h
      simp only [List.filter_cons, h, if_true, hcond, List.length_cons]
      omega
    · have hcond : ¬ (!((firstOnlineUrl inf.links).getD "" == "")) = true := h
      simp only [List.filter_cons, h, if_false, hcond, List.length_cons]
      simp [hcond]

theorem splitFirst_fst : ∀ s : List Char,
    (splitFirst s).1 = s.takeWhile (fun c => decide (c ≠ ','))
  | [] => rfl
  | c :: cs => by
    by_cases h : c = ','
    · simp [splitFirst, h, List.takeWhile_cons]
    · simp [splitFirst, h, List.takeWhile_cons, splitFirst_fst cs]

theorem patchIdLine_eq (o : Option String) (b : String) :
    patchIdLine o b =
      if pyTruthy o then specAttrPatch "tvg-id=\"" (o.getD "") b else b := by
  cases o with
  | none => simp [patchIdLine, pyTruthy]
  | some v =>
    by_cases hv : v = "" <;>
      simp [patchIdLine, pyTruthy, specAttrPatch, hv, String.append_assoc]

theorem patchLogoLine_eq (o : Option String) (b : String) :
    patchLogoLine o b =
      if pyTruthy o then specAttrPatch "tvg-logo=\"" (o.getD "") b else b := by
  cases o with
  | none => simp [patchLogoLine, pyTruthy]
  | some v =>
    by_cases hv : v = "" <;>
      simp [patchLogoLine, pyTruthy, specAttrPatch, hv, String.append_assoc]

theorem itemBlock_eq_specBlock (it : Item) : itemBlock it = specBlock it := by
  have hbase : String.mk (splitFirst it.header.data).1 = specBase it.header := by
    unfold specBase; rw [splitFirst_fst]
  simp only [itemBlock, specBlock, specMetaLine, hbase, patchIdLine_eq, patchLogoLine_eq]

theorem save_foldl_eq : ∀ (items : List Item) (init : String),
    items.foldl (fun acc it => acc ++ itemBlock it) init = init ++ joinBlocks items
  | [], init => by
    simp [joinBlocks, String.append_empty]
  | it :: rest, init => by
    simp only [List.foldl_cons, joinBlocks]
    rw [save_foldl_eq rest (init ++ itemBlock it), itemBlock_eq_specBlock,
      String.append_assoc]

/-- The serializer output equals the spec's description: the fixed header
line followed by each record's metadata line and link line in order. -/
theorem save_m3u_eq_spec (items : List Item) :
    save_m3u items = m3uHeaderLine ++ joinBlocks items := by
  unfold save_m3u
  exact save_foldl_eq items m3uHeaderLine

theorem splitFirst_snd : ∀ s : List Char,
    (splitFirst s).2 = (match s.dropWhile (fun c => decide (c ≠ ',')) with
      | [] => none
      | _ :: rest => some rest)
  | [] => rfl
  | c :: cs => by
    by_cases h : c = ','
    · simp [splitFirst, h, List.dropWhile_cons]
    · simp [splitFirst, h, List.dropWhile_cons, splitFirst_snd cs]

theorem channel_display_name_eq_afterFirst (h : String) :
    channel_display_name h = pyStrip (afterFirstComma h) := by
  unfold channel_display_name afterFirstComma
  rw [splitFirst_snd h.data]
  rcases hd : h.data.dropWhile (fun c => decide (c ≠ ',')) with _ | ⟨c, rest⟩ <;> simp

end CombinePlaylists

namespace CombinePlaylists

example : parse_m3u (MFile.fileLines ["#EXTINF:-1 group-title=\"Music\" tvg-id=\"x\",My Chan", "http://a"]) =
    [⟨"#EXTINF:-1 group-title=\"Music\" tvg-id=\"x\",My Chan", "http://a", "Music", some "x", none, "My Chan", 3⟩] := rfl

example : parse_m3u (MFile.fileLines ["#EXTINF:-1,", "http://a"]) =
    [⟨"#EXTINF:-1,", "http://a", "Other", none, none, "", 3⟩] := rfl

example : parse_json_data [("Ch", ⟨some "Bangla", none, none,
    [⟨"a", some "offline"⟩, ⟨"b", some "online"⟩]⟩)] =
    [⟨"#EXTINF:-1 group-title=\"Bangla\",Ch", "b", "Bangla", some "Ch", none, "Ch", 2⟩] := rfl

example : parse_json_data [("E", ⟨none, none, none, [⟨"", some "online"⟩, ⟨"b", some "online"⟩]⟩)] = [] := rfl

/-- C1, counterexample: the merge loop is first-write-wins on the
concatenation it receives, so when the playlist sequence is passed first the
merged output keeps the playlist record for `Chan` and carries none of the
structured record's `link`, `id`, or `logo`: order does matter. -/
theorem merge_order_sensitivity_cex :
    ¬ ∃ it ∈ mergeStep [ytChanItem] [jsonChanItem],
      it.name = "Chan" ∧ it.link = jsonChanItem.link ∧
        it.tvg_id = jsonChanItem.tvg_id ∧ it.tvg_logo = jsonChanItem.tvg_logo := by
  decide

/-- C1, amended: with the structured sequence concatenated before the
playlist sequence — the order `main` fixes at line 130 — any name present in
the structured sequence resolves to its first structured record, so that
record's `link`, `id` and `logo` survive the merge whatever the playlist
sequence contains. -/
theorem merge_struct_first_precedence (chans yt : List Item) (n : String) (c : Item)
    (h : chans.find? (fun it => decide (it.name = n)) = some c) :
    (mergeStep chans yt).find? (fun it => decide (it.name = n)) = some c := by
  rw [mergeStep_find?, h]
  rfl

/-- Witness for C1 at a concrete pair of parser outputs. -/
theorem merge_struct_first_precedence_witness :
    [jsonChanItem].find? (fun it => decide (it.name = "Chan")) = some jsonChanItem ∧
      (mergeStep [jsonChanItem] [ytChanItem]).find? (fun it => decide (it.name = "Chan")) =
        some jsonChanItem :=
  ⟨by decide, merge_struct_first_precedence [jsonChanItem] [ytChanItem] "Chan" jsonChanItem
    (by decide)⟩

/-- C2: the merge loop keeps the first record of each name (lookups into the
retained list find the same record as in the input), retained names are
pairwise distinct, the retained list is a subsequence of the input, and the
`duplicates_removed` counter accounts exactly for the dropped records. -/
theorem dedupe_first_wins_and_count (l : List Item) :
    (dedupe l).1.length + (dedupe l).2 = l.length ∧
      (∀ n : String, (dedupe l).1.find? (fun it => decide (it.name = n)) =
        l.find? (fun it => decide (it.name = n))) ∧
      ((dedupe l).1.map Item.name).Nodup ∧
      List.Sublist (dedupe l).1 l :=
  ⟨dedupeFrom_length l [], fun n => dedupe_find? l n,
    dedupeFrom_names_nodup l [], dedupeFrom_sublist l []⟩

/-- C3: the ordered output is exactly the flat map of the per-group
case-insensitively sorted buckets over the group sequence
`priority groups present (in the literal priority order) ++ remaining
distinct groups sorted ascending`; the in-bucket sort is sorted under the
lowered-name key and stable (each key class keeps input order); the whole
output is a permutation of the deduplicated input. -/
theorem ordering_group_major_name_minor (l : List Item) :
    orderItems l = (specKeySeq l).flatMap
        (fun g => sortItems (l.filter (fun it => decide (it.group = g)))) ∧
      (∀ m : List Item, (sortItems m).Pairwise nameLe ∧
        ∀ k : String, (sortItems m).filter (fun x => decide (nameKey x = k)) =
          m.filter (fun x => decide (nameKey x = k))) ∧
      List.Perm (orderItems l) l :=
  ⟨orderItems_eq_spec l,
    fun m => ⟨sortItems_sorted m, fun k => filter_sortItems k m⟩,
    orderItems_perm l⟩

/-- C4: a structured entry with no endpoint of status `online` contributes no
record, and any record it does contribute links to the URL of the first
endpoint whose status is `online`. -/
theorem json_first_online_selection (name : String) (info : ChanInfo) :
    (info.links.find? isOnline = none → entryRecords name info = []) ∧
      ∀ it ∈ entryRecords name info,
        (info.links.find? isOnline).map Endpoint.url = some it.link :=
  ⟨fun h => entryRecords_of_none (show firstOnlineUrl info.links = none by
      unfold firstOnlineUrl; rw [h]; rfl),
    fun it hit => entryRecords_link it hit⟩

/-- Witness for C4 at the spec's own example entry: offline `a` then online
`b` yields link `b`. -/
theorem json_first_online_selection_witness :
    onlineSecondItem ∈ entryRecords "Ch" onlineSecondInfo ∧
      (onlineSecondInfo.links.find? isOnline).map Endpoint.url = some onlineSecondItem.link :=
  ⟨by decide, (json_first_online_selection "Ch" onlineSecondInfo).2 onlineSecondItem (by decide)⟩

/-- C5, counterexample: on a metadata line with two commas the parser's name
is everything after the first comma, not the trailing text after the last
comma. -/
theorem name_after_last_comma_cex :
    (parse_m3u twoCommaFile).map Item.name = ["Foo, Bar"] ∧
      lastCommaName "#EXTINF:-1,Foo, Bar" = "Bar" ∧
      ("Foo, Bar" : String) ≠ "Bar" := by
  refine ⟨rfl, rfl, ?_⟩
  decide

/-- C5, amended: for every metadata line the record's name is the text after
the FIRST comma of the line (the whole line when it has no comma),
whitespace-trimmed. -/
theorem name_after_first_comma :
    (∀ h : String, channel_display_name h = pyStrip (afterFirstComma h)) ∧
      ∀ mf : MFile, ∀ it ∈ parse_m3u mf, it.name = pyStrip (afterFirstComma it.header) :=
  ⟨channel_display_name_eq_afterFirst,
    fun mf it hit =>
      ((parse_m3u_name_eq mf it hit).1).trans (channel_display_name_eq_afterFirst _)⟩

/-- Witness for C5 at the two-comma fixture. -/
theorem name_after_first_comma_witness :
    twoCommaItem ∈ parse_m3u twoCommaFile ∧
      twoCommaItem.name = pyStrip (afterFirstComma twoCommaItem.header) :=
  ⟨by decide, name_after_first_comma.2 twoCommaFile twoCommaItem (by decide)⟩

/-- C6, counterexample: a JSON source whose content fails decoding or JSON
parsing — a blank file included, since `json.load` rejects empty input — does
not yield zero records without error: the exception propagates, unlike the
m3u parser which tolerates the same conditions. -/
theorem blank_json_not_tolerated_cex :
    ¬ parse_json_channels JFile.decodeError = Except.ok [] :=
  fun h => Except.noConfusion h

/-- C6, amended: the playlist parser yields zero records on a missing or
blank file and treats malformed attribute text (`group-title=""`, unquoted
`tvg-id=x`) as an absent attribute; the structured parser tolerates only a
missing file — undecodable or unparsable content (blank files included)
raises an uncaught error. -/
theorem parser_edge_cases_amended :
    parse_m3u MFile.missing = [] ∧
      parse_m3u (MFile.fileLines []) = [] ∧
      parse_m3u (MFile.fileLines ["#EXTINF:-1 group-title=\"\" tvg-id=x,N", "http://l"]) =
        [⟨"#EXTINF:-1 group-title=\"\" tvg-id=x,N", "http://l", "Other", none, none, "N", 3⟩] ∧
      parse_json_channels JFile.missing = Except.ok [] ∧
      parse_json_channels JFile.decodeError = Except.error () :=
  ⟨rfl, rfl, rfl, rfl, rfl⟩

/-- C7: the serialized text is the fixed header line followed, per record in
order, by the metadata line built as the spec describes — header truncated at
its first comma, `tvg-id` then `tvg-logo` patched by replace-or-append when
set, the canonical name appended after a comma — and the link verbatim on the
next line. -/
theorem save_meta_line_construction (items : List Item) :
    save_m3u items = m3uHeaderLine ++ joinBlocks items ∧
      ∀ it : Item, itemBlock it = specMetaLine it ++ "\n" ++ it.link ++ "\n" :=
  ⟨save_m3u_eq_spec items, fun it => itemBlock_eq_specBlock it⟩

/-- C8: the pipeline is a pure function of the two source files' contents:
two runs on equal inputs produce identical output text. -/
theorem pipeline_deterministic (y1 y2 : MFile) (j1 j2 : JFile)
    (hy : y1 = y2) (hj : j1 = j2) : pipelineOutput y1 j1 = pipelineOutput y2 j2 := by
  subst hy
  subst hj
  rfl

/-- Witness for C8 at concrete file contents. -/
theorem pipeline_deterministic_witness :
    twoCommaFile = twoCommaFile ∧ JFile.parsed mixedJson = JFile.parsed mixedJson ∧
      pipelineOutput twoCommaFile (JFile.parsed mixedJson) =
        pipelineOutput twoCommaFile (JFile.parsed mixedJson) :=
  ⟨rfl, rfl, pipeline_deterministic twoCommaFile twoCommaFile
    (JFile.parsed mixedJson) (JFile.parsed mixedJson) rfl rfl⟩

/-- C9, counterexample: a metadata line whose text after the comma is empty
produces a record with an empty name, and that record reaches the merge
step's combined input. -/
theorem empty_name_reaches_merge_cex :
    ∃ it ∈ parse_json_data [] ++ parse_m3u emptyNameFile, it.name = "" := by
  decide

/-- C9, amended: every record in the merge step's combined input carries the
name derived from its source — the trimmed text after the first comma of its
header for playlist records, the entry key for structured records — and that
text can be empty, so no non-emptiness invariant holds. -/
theorem merge_input_names_from_source (mf : MFile) (d : JsonData) :
    ∀ it ∈ parse_json_data d ++ parse_m3u mf,
      (it.source_rank = 3 → it.name = channel_display_name it.header) ∧
        (it.source_rank = 2 → ∃ p ∈ d, it.name = p.1) := by
  intro it hit
  rcases List.mem_append.mp hit with hj | hm
  · rcases parse_json_name_mem d it hj with ⟨p, hp, hname, hrank⟩
    exact ⟨fun h3 => absurd (hrank.symm.trans h3) (by decide),
      fun _ => ⟨p, hp, hname⟩⟩
  · have hh := parse_m3u_name_eq mf it hm
    exact ⟨fun _ => hh.1, fun h2 => absurd (hh.2.symm.trans h2) (by decide)⟩

/-- Witness for C9 at the empty-name fixture. -/
theorem merge_input_names_from_source_witness :
    emptyNameItem ∈ parse_json_data [] ++ parse_m3u emptyNameFile ∧
      ((emptyNameItem.source_rank = 3 →
          emptyNameItem.name = channel_display_name emptyNameItem.header) ∧
        (emptyNameItem.source_rank = 2 → ∃ p ∈ ([] : JsonData), emptyNameItem.name = p.1)) :=
  ⟨by decide, merge_input_names_from_source emptyNameFile [] emptyNameItem (by decide)⟩

/-- C10: every record the structured parser produces has a non-empty link,
and the number of produced records counts exactly the entries whose first
online endpoint carries a non-empty URL — an entry whose first online
endpoint has an empty URL contributes nothing. -/
theorem json_links_nonempty (d : JsonData) :
    (∀ it ∈ parse_json_data d, it.link ≠ "") ∧
      (parse_json_data d).length = (d.filter entryKept).length :=
  ⟨parse_json_link_ne d, parse_json_length d⟩

/-- Witness for C10 on data mixing a dropped empty-URL entry with a kept one. -/
theorem json_links_nonempty_witness :
    onlineSecondItem ∈ parse_json_data mixedJson ∧ onlineSecondItem.link ≠ "" ∧
      (parse_json_data mixedJson).length = (mixedJson.filter entryKept).length :=
  ⟨by decide, (json_links_nonempty mixedJson).1 onlineSecondItem (by decide),
    (json_links_nonempty mixedJson).2⟩

end CombinePlaylists
